import Mathlib

/-!
Verification of the AI categorization backend (src/backend/app.py).

The Python module is shallowly embedded: the SQLite table
`ai_categorizations` becomes an association list of `DBRow` (its key
uniqueness is the `UNIQUE(account_name, file_type)` constraint together
with `INSERT OR REPLACE`), Python dictionaries become lookup functions,
floats carrying confidence scores become rationals, and the two Flask
endpoints become pure state-passing functions.  Timestamps and the unused
`section_patterns` table are not modelled; no claim mentions them.
-/

/-- Python's `str.lower()` on the strings appearing here (character-wise
lowercasing). -/
def pyLower (s : String) : String := String.mk (s.data.map Char.toLower)

/-- Python's `str.strip()`: drop leading and trailing whitespace. -/
def pyStrip (s : String) : String :=
  String.mk (((s.data.dropWhile Char.isWhitespace).reverse.dropWhile
    Char.isWhitespace).reverse)

/-- The normalisation `account_name.lower().strip()` used throughout app.py. -/
def pyNorm (s : String) : String := pyStrip (pyLower s)

/-- Whether `sub` occurs at the start of `l` (helper for substring tests). -/
def subAt : List Char → List Char → Bool
  | [], _ => true
  | _ :: _, [] => false
  | c :: cs, d :: ds => c == d && subAt cs ds

/-- Whether `sub` occurs contiguously anywhere inside `l`. -/
def hasSub (sub : List Char) : List Char → Bool
  | [] => sub.isEmpty
  | d :: ds => subAt sub (d :: ds) || hasSub sub ds

/-- Python's `sub in s` on strings: contiguous substring containment. -/
def strContains (s sub : String) : Bool := hasSub sub.data s.data

/-- `AICategorizer.income_keywords` (app.py lines 62-67). -/
def income_keywords : List String :=
  ["rent", "revenue", "income", "receipts", "fees", "charges",
   "tenant", "resident", "rental", "lease", "concessions",
   "short term", "airbnb", "vrbo", "parking", "pet fees",
   "application", "admin", "late fees", "utility recovery"]

/-- `AICategorizer.expense_keywords` (app.py lines 69-75). -/
def expense_keywords : List String :=
  ["expense", "cost", "maintenance", "repair", "utilities",
   "insurance", "tax", "management", "legal", "accounting",
   "marketing", "advertising", "cleaning", "landscaping",
   "security", "supplies", "equipment", "capital", "depreciation",
   "move out", "damages", "incentives", "specials"]

/-- `AICategorizer.total_keywords` (app.py lines 77-81). -/
def total_keywords : List String :=
  ["total income", "total expense", "net income", "gross income",
   "operating income", "operating expense", "net operating income",
   "total revenue", "total costs", "profit", "loss"]

/-- One inner step of the Levenshtein distance dynamic programme:
`pj1` is the previous row's entry above the cell, `pj` the one above-left,
`left` the entry just computed to the cell's left. -/
def levRowGo (ca : Char) : List Char → List ℕ → ℕ → ℕ → List ℕ
  | cb :: bs, pj1 :: prest, pj, left =>
    let cur := min (pj1 + 1) (min (left + 1) (pj + (if ca == cb then 0 else 1)))
    cur :: levRowGo ca bs prest pj1 cur
  | _, _, _, _ => []

/-- The next row of the Levenshtein distance table for character `ca`. -/
def levRow (ca : Char) (b : List Char) (prev : List ℕ) : List ℕ :=
  match prev with
  | [] => []
  | p0 :: rest => (p0 + 1) :: levRowGo ca b rest p0 (p0 + 1)

/-- Levenshtein edit distance by the classical row-by-row dynamic programme. -/
def levDist (a b : List Char) : ℕ :=
  (a.foldl (fun prev ca => levRow ca b prev) (List.range (b.length + 1))).getLastD 0

/-- Normalised Levenshtein similarity on a 0-100 scale. -/
def levSim (a b : List Char) : ℕ :=
  if a.length + b.length == 0 then 0
  else (100 * (a.length + b.length - levDist a b)) / (a.length + b.length)

/-- All contiguous windows of length `n` of a character list. -/
def windows (n : ℕ) : List Char → List (List Char)
  | [] => if n == 0 then [[]] else []
  | c :: cs => if n ≤ cs.length + 1 then (c :: cs).take n :: windows n cs else []

/-- Modelled from the spec: the source calls `fuzz.partial_ratio` of the
external fuzzywuzzy library, whose code is not part of this repository.
Per the spec it is "a substring-aware partial ratio (e.g., Levenshtein-based
optimal partial alignment of the shorter string within the longer)" on a
0-100 scale: here, the best normalised Levenshtein similarity of the shorter
string against every window of the longer string of the shorter's length.
No claim below depends on the particular values this function returns. -/
def windowSim (s1 s2 : String) : ℕ :=
  let a := s1.data
  let b := s2.data
  let sh := if a.length ≤ b.length then a else b
  let lo := if a.length ≤ b.length then b else a
  ((windows sh.length lo).map (fun w => levSim sh w)).foldl max 0

/-- `max(scores) if scores else 0` over the per-keyword fuzzy scores
(app.py lines 178-182). -/
def maxScoreAgainst (account_lower : String) (kws : List String) : ℕ :=
  (kws.map (fun k => windowSim account_lower k)).foldl max 0

/-- One row of the `ai_categorizations` table (app.py lines 26-39); the
`id` and timestamp columns, which no logic reads, are not modelled. -/
structure DBRow where
  account_name : String
  file_type : String
  predicted_category : String
  confidence_score : ℚ
  user_corrected_category : Option String
  usage_count : ℕ
deriving DecidableEq

/-- The persistent learning table: a list of rows, kept unique per
`(account_name, file_type)` by `save_categorization`. -/
abbrev Store := List DBRow

/-- The `UNIQUE(account_name, file_type)` key test. -/
def keyMatch (r : DBRow) (a ft : String) : Bool :=
  r.account_name == a && r.file_type == ft

/-- The row a `SELECT ... WHERE` / dictionary lookup for the pair
`(a, ft)` yields (`get_learning_data`, app.py lines 83-106, keyed by the
raw account name). -/
def dbFind : Store → String → String → Option DBRow
  | [], _, _ => none
  | r :: rest, a, ft => if keyMatch r a ft then some r else dbFind rest a ft

/-- Remove every row of the pair `(a, ft)` (the delete half of SQLite's
`INSERT OR REPLACE` under the unique key). -/
def eraseKey : Store → String → String → Store
  | [], _, _ => []
  | r :: rest, a, ft =>
    if keyMatch r a ft then eraseKey rest a ft else r :: eraseKey rest a ft

/-- `AICategorizer.save_categorization` (app.py lines 108-127):
`INSERT OR REPLACE` with
`usage_count = COALESCE((SELECT usage_count ...), 0) + 1`. -/
def save_categorization (s : Store) (account_name file_type
    predicted_category : String) (confidence_score : ℚ)
    (user_corrected_category : Option String) : Store :=
  eraseKey s account_name file_type ++
    [⟨account_name, file_type, predicted_category, confidence_score,
      user_corrected_category,
      (match dbFind s account_name file_type with
       | some r => r.usage_count
       | none => 0) + 1⟩]

/-- One input row; the engine only ever reads `row.get('account_name', '')`,
so only that field is modelled. -/
structure Row where
  account_name : String
deriving DecidableEq

/-- The body of the `for` loop of `detect_sections` (app.py lines 137-147):
how one row updates the running `current_category`. -/
def sectionStep (current : Option String) (raw : String) : Option String :=
  let an := pyNorm raw
  if strContains an "income" || strContains an "revenue" then
    if strContains an "total" || strContains an "gross" then some "income"
    else if strContains an "operating" then some "income"
    else current
  else if strContains an "expense" || strContains an "cost" then
    if strContains an "total" || strContains an "operating" then some "expense"
    else current
  else if strContains an "net income" || strContains an "profit" then
    some "net_income"
  else current

/-- One full iteration of `detect_sections` (app.py lines 134-151): update
the current section, then tag the row's original account name with it when
the section is active and the normalised name is not '', 'total' or
'subtotal'.  The Python dict `sections` is modelled as a lookup function. -/
def detectStep (acc : (String → Option String) × Option String) (row : Row) :
    (String → Option String) × Option String :=
  let cur := sectionStep acc.2 row.account_name
  let an := pyNorm row.account_name
  match cur with
  | some c =>
    if an == "" || an == "total" || an == "subtotal" then (acc.1, cur)
    else (fun n => if n == row.account_name then some c else acc.1 n, cur)
  | none => (acc.1, none)

/-- `AICategorizer.detect_sections` (app.py lines 129-153). -/
def detect_sections (data : List Row) : String → Option String :=
  (data.foldl detectStep (fun _ => none, none)).1

/-- The edit-distance stage of `fuzzy_categorize` (app.py lines 177-192). -/
def fuzzyScorePart (account_lower : String) : String × ℚ :=
  let max_income_score := maxScoreAgainst account_lower income_keywords
  let max_expense_score := maxScoreAgainst account_lower expense_keywords
  if max_income_score > max_expense_score ∧ max_income_score > 60 then
    ("income", min ((max_income_score : ℚ) / 100) 0.85)
  else if max_expense_score > 60 then
    ("expense", min ((max_expense_score : ℚ) / 100) 0.85)
  else
    ("uncategorized", 0.3)

/-- `AICategorizer.fuzzy_categorize` (app.py lines 155-192): exact-match
learning lookup first (user correction at 0.95, else the stored prediction
verbatim), then the total/summary keyword step at 0.9, then fuzzy scoring. -/
def fuzzy_categorize (s : Store) (account_name file_type : String) :
    String × ℚ :=
  let account_lower := pyNorm account_name
  match dbFind s account_name file_type with
  | some learned =>
    match learned.user_corrected_category with
    | some c => (c, 0.95)
    | none => (learned.predicted_category, learned.confidence_score)
  | none =>
    let totalHit := total_keywords.any (fun k => strContains account_lower k)
    if totalHit && strContains account_lower "income" then ("income", 0.9)
    else if totalHit && strContains account_lower "expense" then ("expense", 0.9)
    else if totalHit && strContains account_lower "net" then ("net_income", 0.9)
    else fuzzyScorePart account_lower

/-- An output row of `categorize_csv_data`: the input row (its account
name) augmented with `ai_category` and `confidence_score`. -/
structure CatRow where
  account_name : String
  ai_category : String
  confidence_score : ℚ
deriving DecidableEq

/-- The skip test of the main loop (app.py line 205):
`if not account_name or account_name.strip() == '': continue`. -/
def rowSkipped (account_name : String) : Bool :=
  account_name == "" || pyStrip account_name == ""

/-- The per-row resolution (app.py lines 208-214): section mapping first
(fixed confidence 0.9), else `fuzzy_categorize`. -/
def resolveRow (secs : String → Option String) (s : Store)
    (account_name file_type : String) : String × ℚ :=
  match secs account_name with
  | some c => (c, 0.9)
  | none => fuzzy_categorize s account_name file_type

/-- One iteration of the main loop of `categorize_csv_data` (app.py lines
203-222): skip blank names, resolve, save the outcome with no user
correction, append the augmented row. -/
def catStep (secs : String → Option String) (file_type : String)
    (acc : List CatRow × Store) (row : Row) : List CatRow × Store :=
  if rowSkipped row.account_name then acc
  else
    let v := resolveRow secs acc.2 row.account_name file_type
    (acc.1 ++ [⟨row.account_name, v.1, v.2⟩],
     save_categorization acc.2 row.account_name file_type v.1 v.2 none)

/-- The summary block of `categorize_csv_data` (app.py lines 224-239). -/
structure Summary where
  total_records : ℕ
  income_count : ℕ
  expense_count : ℕ
  net_income_count : ℕ
  uncategorized_count : ℕ
  confidence_avg : Option ℚ
deriving DecidableEq

/-- The value `categorize_csv_data` returns (app.py lines 230-240). -/
structure CatResult where
  categorized_data : List CatRow
  summary : Summary
deriving DecidableEq

/-- Build the returned dictionary from the categorized rows (app.py lines
224-240).  `confidence_avg` is `none` exactly when the row list is empty:
there `np.mean([...])` has no defined value (NumPy yields NaN with a
RuntimeWarning), and `none` records that undefinedness; on a nonempty list
it is the arithmetic mean. -/
def mkCatResult (rows : List CatRow) : CatResult :=
  ⟨rows,
   ⟨rows.length,
    rows.countP (fun r => r.ai_category == "income"),
    rows.countP (fun r => r.ai_category == "expense"),
    rows.countP (fun r => r.ai_category == "net_income"),
    rows.countP (fun r => r.ai_category == "uncategorized"),
    if rows.length == 0 then none
    else some ((rows.map (fun r => r.confidence_score)).sum / rows.length)⟩⟩

/-- `AICategorizer.categorize_csv_data` (app.py lines 194-240), paired with
the learning store it leaves behind. -/
def categorize_csv_data (s : Store) (csv_data : List Row)
    (file_type : String) : CatResult × Store :=
  let res := csv_data.foldl (catStep (detect_sections csv_data) file_type) ([], s)
  (mkCatResult res.1, res.2)

/-- Outcome of an endpoint call: HTTP 200 success or the 400 client error. -/
inductive ApiResp where
  | ok : ApiResp
  | clientError : ApiResp
deriving DecidableEq

/-- The `/api/learn` endpoint (app.py lines 273-292).  `data.get(...)`
yields `none` for an absent field; `not all([...])` rejects an absent or
empty string (Python truthiness); otherwise the correction is stored as
predicted category 'uncategorized' at confidence 0.3 with the user's
category as the correction. -/
def learn_from_correction (s : Store)
    (account_name file_type user_category : Option String) : ApiResp × Store :=
  match account_name, file_type, user_category with
  | some a, some ft, some u =>
    if a == "" || ft == "" || u == "" then (ApiResp.clientError, s)
    else (ApiResp.ok, save_categorization s a ft "uncategorized" 0.3 (some u))
  | _, _, _ => (ApiResp.clientError, s)

/-- The four documented category values. -/
def enumCats : List String := ["income", "expense", "net_income", "uncategorized"]

/-- Learning stores reachable from the empty database through the two
endpoints, with every user-supplied correction category drawn from `U`. -/
inductive Reachable (U : List String) : Store → Prop where
  | init : Reachable U []
  | learn (s : Store) (a ft u : Option String) (hs : Reachable U s)
      (hu : ∀ x, u = some x → x ∈ U) :
      Reachable U (learn_from_correction s a ft u).2
  | cat (s : Store) (rows : List Row) (ft : String) (hs : Reachable U s) :
      Reachable U (categorize_csv_data s rows ft).2

/-- Claim C10's reading of `detect_sections`, specialised to one queried
name `n`: scan the rows keeping the running section (normalised-name
rules), and record the section exactly at rows whose raw, un-normalised
account name equals `n`. -/
def exactTagStep (n : String) (acc : Option String × Option String)
    (row : Row) : Option String × Option String :=
  let cur := sectionStep acc.2 row.account_name
  let an := pyNorm row.account_name
  match cur with
  | some c =>
    if an == "" || an == "total" || an == "subtotal" then (acc.1, cur)
    else (if n == row.account_name then some c else acc.1, cur)
  | none => (acc.1, none)

/-- The section `detect_sections` should associate to the exact name `n`,
per claim C10's characterisation. -/
def sectionAtExact (data : List Row) (n : String) : Option String :=
  (data.foldl (exactTagStep n) (none, none)).1

/-- What the main loop of `categorize_csv_data` emits for one input row
when run over store `s`: nothing for a blank name, else the augmented row
carrying that row's resolution. -/
def outRow (secs : String → Option String) (s : Store) (ft : String)
    (row : Row) : Option CatRow :=
  if rowSkipped row.account_name then none
  else some ⟨row.account_name, (resolveRow secs s row.account_name ft).1,
             (resolveRow secs s row.account_name ft).2⟩

/-- The three strings `detect_sections` ever stores as a section. -/
def sectionVal (c : String) : Prop :=
  c = "income" ∨ c = "expense" ∨ c = "net_income"

/-- A confidence score within the documented bounds. -/
def confOK (q : ℚ) : Prop := 0 ≤ q ∧ q ≤ 1

/-- A category that is either a documented enum value or one of the
user-supplied correction strings in `U`. -/
def catOK (U : List String) (c : String) : Prop := c ∈ enumCats ∨ c ∈ U

/-- Every stored row has a bounded confidence, a predicted category from the
enum or from `U`, and a user correction (when present) from `U`. -/
def storeOK (U : List String) (s : Store) : Prop :=
  ∀ r ∈ s, catOK U r.predicted_category ∧ confOK r.confidence_score ∧
    ∀ x, r.user_corrected_category = some x → x ∈ U

theorem keyMatch_iff {r : DBRow} {a ft : String} :
    keyMatch r a ft = true ↔ (r.account_name = a ∧ r.file_type = ft) := by
  simp [keyMatch]

theorem dbFind_mem {s : Store} {a ft : String} {r : DBRow}
    (h : dbFind s a ft = some r) : r ∈ s := by
  induction s with
  | nil => simp [dbFind] at h
  | cons x rest ih =>
    simp only [dbFind] at h
    split at h
    · cases h
      exact List.mem_cons_self _ _
    · exact List.mem_cons_of_mem _ (ih h)

theorem dbFind_append (s t : Store) (a ft : String) :
    dbFind (s ++ t) a ft =
      (match dbFind s a ft with
       | some r => some r
       | none => dbFind t a ft) := by
  induction s with
  | nil => simp [dbFind]
  | cons x rest ih =>
    simp only [List.cons_append, dbFind]
    split
    · rfl
    · exact ih

theorem dbFind_eraseKey_self (s : Store) (a ft : String) :
    dbFind (eraseKey s a ft) a ft = none := by
  induction s with
  | nil => simp [eraseKey, dbFind]
  | cons x rest ih =>
    simp only [eraseKey]
    split
    · exact ih
    · next hk =>
      simp only [dbFind]
      rw [if_neg]
      · exact ih
      · simp [hk]

theorem dbFind_eraseKey_other (s : Store) {a ft b fb : String}
    (h : ¬(b = a ∧ fb = ft)) :
    dbFind (eraseKey s a ft) b fb = dbFind s b fb := by
  induction s with
  | nil => simp [eraseKey]
  | cons x rest ih =>
    simp only [eraseKey]
    by_cases hk : keyMatch x a ft = true
    · rw [if_pos hk, dbFind, if_neg, ih]
      intro hb
      rcases keyMatch_iff.mp hk with ⟨h1, h2⟩
      rcases keyMatch_iff.mp hb with ⟨h3, h4⟩
      exact h ⟨h3 ▸ h1.symm ▸ rfl, h4 ▸ h2.symm ▸ rfl⟩
    · rw [if_neg hk, dbFind, dbFind]
      split
      · rfl
      · exact ih

theorem mem_eraseKey {s : Store} {a ft : String} {r : DBRow}
    (h : r ∈ eraseKey s a ft) : r ∈ s := by
  induction s with
  | nil => simp [eraseKey] at h
  | cons x rest ih =>
    simp only [eraseKey] at h
    split at h
    · exact List.mem_cons_of_mem _ (ih h)
    · rcases List.mem_cons.mp h with h1 | h2
      · exact h1 ▸ List.mem_cons_self _ _
      · exact List.mem_cons_of_mem _ (ih h2)

theorem dbFind_save_self (s : Store) (a ft p : String) (c : ℚ)
    (u : Option String) :
    dbFind (save_categorization s a ft p c u) a ft =
      some ⟨a, ft, p, c, u,
        (match dbFind s a ft with
         | some r => r.usage_count
         | none => 0) + 1⟩ := by
  rw [save_categorization, dbFind_append, dbFind_eraseKey_self]
  simp [dbFind, keyMatch]

theorem dbFind_save_other (s : Store) {a ft p : String} {c : ℚ}
    {u : Option String} {b fb : String} (h : ¬(b = a ∧ fb = ft)) :
    dbFind (save_categorization s a ft p c u) b fb = dbFind s b fb := by
  rw [save_categorization, dbFind_append, dbFind_eraseKey_other s h]
  split
  · next r heq => exact heq.symm
  · next hnone =>
    rw [hnone, dbFind, if_neg]
    · rfl
    · intro hk
      rcases keyMatch_iff.mp hk with ⟨h1, h2⟩
      exact h ⟨h1.symm, h2.symm⟩

theorem fuzzy_store_congr {s1 s2 : Store} {a ft : String}
    (h : dbFind s1 a ft = dbFind s2 a ft) :
    fuzzy_categorize s1 a ft = fuzzy_categorize s2 a ft := by
  simp only [fuzzy_categorize, h]

theorem resolveRow_store_congr {secs : String → Option String}
    {s1 s2 : Store} {a ft : String}
    (h : dbFind s1 a ft = dbFind s2 a ft) :
    resolveRow secs s1 a ft = resolveRow secs s2 a ft := by
  unfold resolveRow
  cases secs a
  · exact fuzzy_store_congr h
  · rfl

theorem fuzzy_after_save (s : Store) (a ft p : String) (c : ℚ) :
    fuzzy_categorize (save_categorization s a ft p c none) a ft = (p, c) := by
  simp only [fuzzy_categorize, dbFind_save_self]

theorem resolveRow_save_self (secs : String → Option String) (s : Store)
    (a ft : String) :
    resolveRow secs (save_categorization s a ft
      (resolveRow secs s a ft).1 (resolveRow secs s a ft).2 none) a ft =
    resolveRow secs s a ft := by
  cases hsec : secs a with
  | some c => simp [resolveRow, hsec]
  | none => simp only [resolveRow, hsec, fuzzy_after_save]

theorem resolveRow_save_other (secs : String → Option String) (s : Store)
    {a ft p : String} {c : ℚ} {u : Option String} {b : String}
    (hb : b ≠ a) :
    resolveRow secs (save_categorization s a ft p c u) b ft =
      resolveRow secs s b ft :=
  resolveRow_store_congr (dbFind_save_other s (fun hc => hb hc.1))

theorem resolveRow_catStep (secs : String → Option String) (ft : String)
    (acc : List CatRow × Store) (row : Row) (b : String) :
    resolveRow secs (catStep secs ft acc row).2 b ft =
      resolveRow secs acc.2 b ft := by
  simp only [catStep]
  split
  · rfl
  · by_cases hb : b = row.account_name
    · subst hb
      exact resolveRow_save_self secs acc.2 row.account_name ft
    · exact resolveRow_save_other secs acc.2 hb

theorem resolveRow_fold (secs : String → Option String) (ft : String)
    (rows : List Row) :
    ∀ (acc : List CatRow × Store) (b : String),
      resolveRow secs (rows.foldl (catStep secs ft) acc).2 b ft =
        resolveRow secs acc.2 b ft := by
  induction rows with
  | nil => intro acc b; rfl
  | cons row rest ih =>
    intro acc b
    rw [List.foldl_cons, ih, resolveRow_catStep]

theorem outRow_catStep (secs : String → Option String) (ft : String)
    (acc : List CatRow × Store) (row r : Row) :
    outRow secs (catStep secs ft acc row).2 ft r = outRow secs acc.2 ft r := by
  simp only [outRow, resolveRow_catStep]

theorem run_out (secs : String → Option String) (ft : String)
    (rows : List Row) :
    ∀ (out : List CatRow) (s : Store),
      (rows.foldl (catStep secs ft) (out, s)).1 =
        out ++ rows.filterMap (outRow secs s ft) := by
  induction rows with
  | nil => intro out s; simp
  | cons row rest ih =>
    intro out s
    rw [List.foldl_cons, List.filterMap_cons]
    have heta : catStep secs ft (out, s) row =
        ((catStep secs ft (out, s) row).1, (catStep secs ft (out, s) row).2) := rfl
    rw [heta, ih]
    rw [List.filterMap_congr (fun x _ => outRow_catStep secs ft (out, s) row x)]
    by_cases hsk : rowSkipped row.account_name = true
    · simp [catStep, hsk, outRow]
    · simp [catStep, hsk, outRow]

theorem categorize_out (s : Store) (rows : List Row) (ft : String) :
    (categorize_csv_data s rows ft).1 =
      mkCatResult (rows.filterMap (outRow (detect_sections rows) s ft)) := by
  simp only [categorize_csv_data]
  rw [run_out]
  simp

theorem categorize_store (s : Store) (rows : List Row) (ft : String) :
    (categorize_csv_data s rows ft).2 =
      (rows.foldl (catStep (detect_sections rows) ft) ([], s)).2 := rfl

theorem dbFind_catStep_other (secs : String → Option String) (ft : String)
    (acc : List CatRow × Store) (row : Row) {a : String}
    (hne : rowSkipped row.account_name = false → row.account_name ≠ a) :
    dbFind (catStep secs ft acc row).2 a ft = dbFind acc.2 a ft := by
  simp only [catStep]
  split
  · rfl
  · next hsk =>
    exact dbFind_save_other acc.2
      (fun hc => hne (Bool.not_eq_true _ ▸ hsk) hc.1.symm)

theorem store_fold_untouched (secs : String → Option String) (ft a : String)
    (rows : List Row)
    (h : ∀ row ∈ rows, rowSkipped row.account_name = false →
      row.account_name ≠ a) :
    ∀ acc, dbFind (rows.foldl (catStep secs ft) acc).2 a ft =
      dbFind acc.2 a ft := by
  induction rows with
  | nil => intro acc; rfl
  | cons row rest ih =>
    intro acc
    rw [List.foldl_cons,
      ih (fun r hr => h r (List.mem_cons_of_mem _ hr)),
      dbFind_catStep_other secs ft acc row (h row (List.mem_cons_self _ _))]

theorem store_fold_appears (secs : String → Option String) (ft a : String)
    (rows : List Row) :
    ∀ (acc : List CatRow × Store),
      (∃ row ∈ rows, row.account_name = a ∧ rowSkipped a = false) →
      ∃ n, dbFind (rows.foldl (catStep secs ft) acc).2 a ft =
        some ⟨a, ft, (resolveRow secs acc.2 a ft).1,
              (resolveRow secs acc.2 a ft).2, none, n⟩ := by
  induction rows with
  | nil =>
    intro acc h
    rcases h with ⟨r, hr, _⟩
    exact absurd hr (List.not_mem_nil r)
  | cons row rest ih =>
    intro acc hex
    rw [List.foldl_cons]
    by_cases hrest : ∃ r ∈ rest, r.account_name = a ∧ rowSkipped a = false
    · rcases ih (catStep secs ft acc row) hrest with ⟨n, hn⟩
      rw [resolveRow_catStep] at hn
      exact ⟨n, hn⟩
    · have hrow : row.account_name = a ∧ rowSkipped a = false := by
        rcases hex with ⟨r, hr, hprop⟩
        rcases List.mem_cons.mp hr with h1 | h2
        · exact h1 ▸ hprop
        · exact absurd ⟨r, h2, hprop⟩ hrest
      have huntouched : ∀ r ∈ rest, rowSkipped r.account_name = false →
          r.account_name ≠ a := by
        intro r hr hskip hname
        exact hrest ⟨r, hr, hname, hname ▸ hskip⟩
      rw [store_fold_untouched secs ft a rest huntouched]
      rcases hrow with ⟨hname, hskip⟩
      subst hname
      simp only [catStep, hskip]
      exact ⟨_, dbFind_save_self _ _ _ _ _ _⟩

theorem sectionStep_val {cur : Option String} {raw : String}
    (h : ∀ c, cur = some c → sectionVal c) :
    ∀ c, sectionStep cur raw = some c → sectionVal c := by
  intro c hc
  simp only [sectionStep] at hc
  split at hc
  · split at hc
    · injection hc with h1
      exact h1 ▸ Or.inl rfl
    · split at hc
      · injection hc with h1
        exact h1 ▸ Or.inl rfl
      · exact h c hc
  · split at hc
    · split at hc
      · injection hc with h1
        exact h1 ▸ Or.inr (Or.inl rfl)
      · exact h c hc
    · split at hc
      · injection hc with h1
        exact h1 ▸ Or.inr (Or.inr rfl)
      · exact h c hc

theorem detect_fold_val (data : List Row) :
    ∀ (m : String → Option String) (cur : Option String),
      (∀ n c, m n = some c → sectionVal c) →
      (∀ c, cur = some c → sectionVal c) →
      ∀ n c, (data.foldl detectStep (m, cur)).1 n = some c → sectionVal c := by
  induction data with
  | nil => intro m cur hm _ n c h; exact hm n c h
  | cons row rest ih =>
    intro m cur hm hcur n c h
    rw [List.foldl_cons] at h
    have hcur' : ∀ c, sectionStep cur row.account_name = some c → sectionVal c :=
      sectionStep_val hcur
    rcases hstep : sectionStep cur row.account_name with _ | c0
    · have hd : detectStep (m, cur) row = (m, none) := by
        simp [detectStep, hstep]
      rw [hd] at h
      exact ih m none hm (fun c hc => Option.noConfusion hc) n c h
    · have hval : sectionVal c0 := hcur' c0 hstep
      have hcv : ∀ c, (some c0 : Option String) = some c → sectionVal c := by
        intro c hc
        injection hc with h1
        exact h1 ▸ hval
      by_cases hskip : (pyNorm row.account_name == "" ||
          pyNorm row.account_name == "total" ||
          pyNorm row.account_name == "subtotal") = true
      · have hd : detectStep (m, cur) row = (m, some c0) := by
          simp [detectStep, hstep, hskip]
        rw [hd] at h
        exact ih m (some c0) hm hcv n c h
      · have hd : detectStep (m, cur) row =
            (fun x => if x == row.account_name then some c0 else m x,
             some c0) := by
          simp only [detectStep, hstep]
          rw [if_neg hskip]
        rw [hd] at h
        refine ih _ (some c0) ?_ hcv n c h
        intro x cx hx
        by_cases hxn : (x == row.account_name) = true
        · rw [if_pos hxn] at hx
          injection hx with h1
          exact h1 ▸ hval
        · rw [if_neg hxn] at hx
          exact hm x cx hx

theorem detect_sections_val (data : List Row) :
    ∀ n c, detect_sections data n = some c → sectionVal c :=
  detect_fold_val data _ _ (fun _ _ h => Option.noConfusion h)
    (fun _ h => Option.noConfusion h)

theorem fuzzyScorePart_OK (al : String) :
    (fuzzyScorePart al).1 ∈ enumCats ∧ confOK (fuzzyScorePart al).2 := by
  simp only [fuzzyScorePart, confOK]
  split
  · refine ⟨by simp [enumCats], le_min (by positivity) (by norm_num), ?_⟩
    exact le_trans (min_le_right _ _) (by norm_num)
  · split
    · refine ⟨by simp [enumCats], le_min (by positivity) (by norm_num), ?_⟩
      exact le_trans (min_le_right _ _) (by norm_num)
    · exact ⟨by simp [enumCats], by norm_num, by norm_num⟩

theorem fuzzy_OK {U : List String} {s : Store} (hs : storeOK U s)
    (a ft : String) :
    catOK U (fuzzy_categorize s a ft).1 ∧
      confOK (fuzzy_categorize s a ft).2 := by
  rcases hfind : dbFind s a ft with _ | r
  · simp only [fuzzy_categorize, hfind]
    split
    · exact ⟨Or.inl (by simp [enumCats]), by constructor <;> norm_num⟩
    · split
      · exact ⟨Or.inl (by simp [enumCats]), by constructor <;> norm_num⟩
      · split
        · exact ⟨Or.inl (by simp [enumCats]), by constructor <;> norm_num⟩
        · rcases fuzzyScorePart_OK (pyNorm a) with ⟨h1, h2⟩
          exact ⟨Or.inl h1, h2⟩
  · have hmem := dbFind_mem hfind
    rcases hs r hmem with ⟨hcat, hconf, hcorr⟩
    rcases hu : r.user_corrected_category with _ | x
    · simp only [fuzzy_categorize, hfind, hu]
      exact ⟨hcat, hconf⟩
    · simp only [fuzzy_categorize, hfind, hu]
      exact ⟨Or.inr (hcorr x hu), by constructor <;> norm_num⟩

theorem resolveRow_OK {U : List String} {secs : String → Option String}
    {s : Store} (hs : storeOK U s) (a ft : String)
    (hsecv : ∀ c, secs a = some c → sectionVal c) :
    catOK U (resolveRow secs s a ft).1 ∧
      confOK (resolveRow secs s a ft).2 := by
  rcases hsec : secs a with _ | c
  · simp only [resolveRow, hsec]
    exact fuzzy_OK hs a ft
  · simp only [resolveRow, hsec]
    have hv := hsecv c hsec
    refine ⟨Or.inl ?_, by constructor <;> norm_num⟩
    rcases hv with h | h | h <;> simp [enumCats, h]

theorem storeOK_save {U : List String} {s : Store} (hs : storeOK U s)
    {a ft p : String} {c : ℚ} {u : Option String}
    (hp : catOK U p) (hc : confOK c) (hu : ∀ x, u = some x → x ∈ U) :
    storeOK U (save_categorization s a ft p c u) := by
  intro r hr
  rcases List.mem_append.mp hr with h1 | h2
  · exact hs r (mem_eraseKey h1)
  · have : r = ⟨a, ft, p, c, u,
        (match dbFind s a ft with
         | some r => r.usage_count
         | none => 0) + 1⟩ := List.mem_singleton.mp h2
    subst this
    exact ⟨hp, hc, hu⟩

theorem storeOK_catStep {U : List String} {secs : String → Option String}
    {ft : String}
    (hsecv : ∀ a c, secs a = some c → sectionVal c)
    {acc : List CatRow × Store} (hs : storeOK U acc.2) (row : Row) :
    storeOK U (catStep secs ft acc row).2 := by
  simp only [catStep]
  split
  · exact hs
  · rcases resolveRow_OK hs row.account_name ft (hsecv row.account_name)
      with ⟨h1, h2⟩
    exact storeOK_save hs h1 h2 (fun x hx => Option.noConfusion hx)

theorem storeOK_fold {U : List String} {secs : String → Option String}
    {ft : String}
    (hsecv : ∀ a c, secs a = some c → sectionVal c) (rows : List Row) :
    ∀ acc : List CatRow × Store, storeOK U acc.2 →
      storeOK U (rows.foldl (catStep secs ft) acc).2 := by
  induction rows with
  | nil => intro acc hs; exact hs
  | cons row rest ih =>
    intro acc hs
    rw [List.foldl_cons]
    exact ih _ (storeOK_catStep hsecv hs row)

theorem reachable_storeOK {U : List String} {s : Store}
    (h : Reachable U s) : storeOK U s := by
  induction h with
  | init => intro r hr; exact absurd hr (List.not_mem_nil r)
  | learn s a ft u hs hu ih =>
    cases a with
    | none => exact ih
    | some a1 =>
      cases ft with
      | none => exact ih
      | some ft1 =>
        cases u with
        | none => exact ih
        | some u1 =>
          simp only [learn_from_correction]
          split
          · exact ih
          · exact storeOK_save ih (Or.inl (by simp [enumCats]))
              ⟨by norm_num, by norm_num⟩ (fun x hx => hu x hx)
  | cat s rows ft hs ih =>
    rw [categorize_store]
    exact storeOK_fold (fun a c hc => detect_sections_val rows a c hc)
      rows ([], s) ih

/-- C1: after a Learn call records a user correction `u` for the pair
`(a, ft)`, the next categorize call returns, for every output row whose
account name is exactly `a` and which the section mapping does not cover,
the corrected category `u` with confidence exactly 0.95, regardless of
what fuzzy scoring alone would produce. -/
theorem c1_user_correction_dominates (s sL : Store) (a ft u : String)
    (rows : List Row) (r : CatRow)
    (hok : learn_from_correction s (some a) (some ft) (some u) =
      (ApiResp.ok, sL))
    (hsec : detect_sections rows a = none)
    (hr : r ∈ (categorize_csv_data sL rows ft).1.categorized_data)
    (hname : r.account_name = a) :
    r.ai_category = u ∧ r.confidence_score = 0.95 := by
  have hsL : sL = save_categorization s a ft "uncategorized" 0.3 (some u) := by
    simp only [learn_from_correction] at hok
    split at hok
    · simp at hok
    · simp only [Prod.mk.injEq] at hok
      exact hok.2.symm
  subst hsL
  rw [categorize_out] at hr
  simp only [mkCatResult] at hr
  rcases List.mem_filterMap.mp hr with ⟨row, hrow, hout⟩
  simp only [outRow] at hout
  split at hout
  · exact Option.noConfusion hout
  · injection hout with h1
    subst h1
    have hra : row.account_name = a := hname
    rw [hra]
    have hres : resolveRow (detect_sections rows)
        (save_categorization s a ft "uncategorized" 0.3 (some u)) a ft =
        (u, 0.95) := by
      simp only [resolveRow, hsec, fuzzy_categorize, dbFind_save_self]
    rw [hres]
    exact ⟨rfl, rfl⟩

/-- Witness for C1: the spec's own scenario, with the store produced by
`Learn("Parking Fees", "X", "expense")` and a one-row categorize call. -/
theorem c1_witness :
    (⟨"Parking Fees", "expense", 0.95⟩ : CatRow).ai_category = "expense" ∧
    (⟨"Parking Fees", "expense", 0.95⟩ : CatRow).confidence_score = 0.95 :=
  c1_user_correction_dominates []
    (save_categorization [] "Parking Fees" "X" "uncategorized" 0.3
      (some "expense"))
    "Parking Fees" "X" "expense" [⟨"Parking Fees"⟩]
    ⟨"Parking Fees", "expense", 0.95⟩
    rfl rfl
    (by
      have h : (categorize_csv_data
          (save_categorization [] "Parking Fees" "X" "uncategorized" 0.3
            (some "expense")) [⟨"Parking Fees"⟩] "X").1.categorized_data =
          [⟨"Parking Fees", "expense", 0.95⟩] := rfl
      rw [h]
      exact List.mem_singleton.mpr rfl)
    rfl

/-- C2 counterexample: the claim fails as stated.  The store reached by
`Learn("X", "t", "banana")` is reachable, yet categorize on the row "X"
replays the correction and outputs the category "banana", which is not one
of the four enum values. -/
theorem c2_counterexample :
    Reachable ["banana"]
      (learn_from_correction [] (some "X") (some "t") (some "banana")).2 ∧
    ∃ r ∈ (categorize_csv_data
        (learn_from_correction [] (some "X") (some "t") (some "banana")).2
        [⟨"X"⟩] "t").1.categorized_data,
      ¬ r.ai_category ∈ enumCats := by
  constructor
  · exact Reachable.learn [] (some "X") (some "t") (some "banana")
      Reachable.init
      (fun x hx => by cases hx; exact List.mem_singleton.mpr rfl)
  · refine ⟨⟨"X", "banana", 0.95⟩, ?_, by decide⟩
    have h : (categorize_csv_data
        (learn_from_correction [] (some "X") (some "t") (some "banana")).2
        [⟨"X"⟩] "t").1.categorized_data =
        [⟨"X", "banana", 0.95⟩] := rfl
    rw [h]
    exact List.mem_singleton.mpr rfl

/-- C2 (amended): for every CategorizedRow produced by categorize, under
any reachable store state, the confidence score lies in [0, 1]; the
category is one of the four enum values or one of the user-supplied
correction strings of the prior Learn calls (so it is an enum value
whenever every prior Learn call used an enum value). -/
theorem c2_confidence_and_category_invariant (U : List String) (s : Store)
    (hreach : Reachable U s) (rows : List Row) (ft : String) (r : CatRow)
    (hr : r ∈ (categorize_csv_data s rows ft).1.categorized_data) :
    (0 ≤ r.confidence_score ∧ r.confidence_score ≤ 1) ∧
    (r.ai_category ∈ enumCats ∨ r.ai_category ∈ U) := by
  have hs := reachable_storeOK hreach
  rw [categorize_out] at hr
  simp only [mkCatResult] at hr
  rcases List.mem_filterMap.mp hr with ⟨row, hrow, hout⟩
  simp only [outRow] at hout
  split at hout
  · exact Option.noConfusion hout
  · injection hout with h1
    subst h1
    rcases resolveRow_OK hs row.account_name ft
      (fun c hc => detect_sections_val rows row.account_name c hc)
      with ⟨h1, h2⟩
    exact ⟨h2, h1⟩

/-- Witness for C2's amended theorem: a store reached by one Learn call
with the enum value "expense", then categorize on the corrected row. -/
theorem c2_witness :
    ((0 : ℚ) ≤ (0.95 : ℚ) ∧ (0.95 : ℚ) ≤ 1) ∧
    ("expense" ∈ enumCats ∨ "expense" ∈ ["expense"]) :=
  c2_confidence_and_category_invariant ["expense"]
    (learn_from_correction [] (some "X") (some "t") (some "expense")).2
    (Reachable.learn [] (some "X") (some "t") (some "expense")
      Reachable.init
      (fun x hx => by cases hx; exact List.mem_singleton.mpr rfl))
    [⟨"X"⟩] "t" ⟨"X", "expense", 0.95⟩
    (by
      have h : (categorize_csv_data
          (learn_from_correction [] (some "X") (some "t") (some "expense")).2
          [⟨"X"⟩] "t").1.categorized_data =
          [⟨"X", "expense", 0.95⟩] := rfl
      rw [h]
      exact List.mem_singleton.mpr rfl)

/-- C3: calling categorize twice in succession with an identical row
sequence and the same file type (no intervening Learn) yields the same
result rows — identical categories and confidences — because the learning
records the first pass writes replay exactly what section/fuzzy logic
already produced. -/
theorem c3_categorize_idempotent (s : Store) (rows : List Row)
    (ft : String) :
    (categorize_csv_data (categorize_csv_data s rows ft).2 rows ft).1 =
      (categorize_csv_data s rows ft).1 := by
  rw [categorize_out, categorize_out, categorize_store]
  congr 1
  apply List.filterMap_congr
  intro row hrow
  simp only [outRow]
  rw [resolveRow_fold]

/-- C4: when the pair has no learning record and the normalised account
name contains a total/summary keyword together with at least one of the
substrings "income", "expense" or "net", fuzzy categorization returns the
corresponding category at confidence exactly 0.9, with "income" checked
first, then "expense", then "net", independent of edit-distance scores. -/
theorem c4_total_keyword_step (s : Store) (a ft : String)
    (hlearn : dbFind s a ft = none)
    (htotal : total_keywords.any (fun k => strContains (pyNorm a) k) = true)
    (hone : strContains (pyNorm a) "income" = true ∨
            strContains (pyNorm a) "expense" = true ∨
            strContains (pyNorm a) "net" = true) :
    fuzzy_categorize s a ft =
      (if strContains (pyNorm a) "income" = true then ("income", (0.9 : ℚ))
       else if strContains (pyNorm a) "expense" = true then ("expense", 0.9)
       else ("net_income", 0.9)) := by
  simp only [fuzzy_categorize, hlearn, htotal, Bool.true_and]
  cases h1 : strContains (pyNorm a) "income" with
  | true => simp [h1]
  | false =>
    cases h2 : strContains (pyNorm a) "expense" with
    | true => simp [h1, h2]
    | false =>
      have h3 : strContains (pyNorm a) "net" = true := by
        rcases hone with h | h | h
        · rw [h1] at h; exact absurd h (by simp)
        · rw [h2] at h; exact absurd h (by simp)
        · exact h
      simp [h1, h2, h3]

/-- Witness for C4: "Total Income" on the empty store. -/
theorem c4_witness :
    fuzzy_categorize [] "Total Income" "p&l" =
      (if strContains (pyNorm "Total Income") "income" = true then
        ("income", (0.9 : ℚ))
       else if strContains (pyNorm "Total Income") "expense" = true then
        ("expense", 0.9)
       else ("net_income", 0.9)) :=
  c4_total_keyword_step [] "Total Income" "p&l" rfl (by decide)
    (Or.inl (by decide))

/-- C5 counterexample: the claim fails on the code at the plain header
"Net Income".  Its normalised form contains "net income" and rules 1 and 2
set no section for it, yet `sectionStep` leaves the current section
unchanged (it enters rule 1's "income" guard and falls through), so it is
not set to net_income, and no row of such a batch gets tagged. -/
theorem c5_counterexample :
    strContains (pyNorm "Net Income") "net income" = true ∧
    sectionStep none "Net Income" = none ∧
    ¬ sectionStep none "Net Income" = some "net_income" ∧
    detect_sections [⟨"Net Income"⟩, ⟨"Rent"⟩] "Rent" = none :=
  ⟨by decide, by decide, by decide, by decide⟩

/-- C5 (amended): for every row whose normalised account name contains
"net income" or "profit" and contains none of the rule-1 and rule-2
trigger substrings "income", "revenue", "expense", "cost" (so the earlier
branches are not even entered — which rules out names containing
"net income", as they contain "income"), the current section is set to
net_income. -/
theorem c5_net_income_rule (cur : Option String) (a : String)
    (h1 : strContains (pyNorm a) "net income" = true ∨
          strContains (pyNorm a) "profit" = true)
    (h2 : strContains (pyNorm a) "income" = false)
    (h3 : strContains (pyNorm a) "revenue" = false)
    (h4 : strContains (pyNorm a) "expense" = false)
    (h5 : strContains (pyNorm a) "cost" = false) :
    sectionStep cur a = some "net_income" := by
  have hcond : (strContains (pyNorm a) "net income" ||
      strContains (pyNorm a) "profit") = true := by
    rcases h1 with h | h <;> simp [h]
  simp [sectionStep, h2, h3, h4, h5, hcond]

/-- Witness for C5's amended theorem: the header "Profit". -/
theorem c5_witness : sectionStep none "Profit" = some "net_income" :=
  c5_net_income_rule none "Profit" (Or.inr (by decide)) (by decide)
    (by decide) (by decide) (by decide)

theorem countP_eraseKey (s : Store) (a ft : String) :
    (eraseKey s a ft).countP (fun r => keyMatch r a ft) = 0 := by
  induction s with
  | nil => rfl
  | cons x rest ih =>
    simp only [eraseKey]
    split
    · exact ih
    · next hk => simp [List.countP_cons, hk, ih]

/-- C6: `save_categorization` is an upsert.  For every pair
`(a, ft)`, if a record for that pair exists its usage count is incremented
by one and its predicted category, confidence and user correction are
overwritten with the arguments; otherwise a fresh record with usage count 1
is inserted; in either case exactly one record for the pair remains. -/
theorem c6_save_upsert (s : Store) (a ft p : String) (c : ℚ)
    (u : Option String) :
    dbFind (save_categorization s a ft p c u) a ft =
      some ⟨a, ft, p, c, u,
        (match dbFind s a ft with
         | some r => r.usage_count
         | none => 0) + 1⟩ ∧
    (save_categorization s a ft p c u).countP (fun r => keyMatch r a ft) = 1 := by
  refine ⟨dbFind_save_self s a ft p c u, ?_⟩
  rw [save_categorization, List.countP_append, countP_eraseKey]
  simp [List.countP_cons, keyMatch]

/-- C7: on a batch whose only row has a whitespace-only account name, the
row is skipped, so categorize returns an empty `categorized_data` and a
summary with `total_records = 0`; the mean-confidence field is the
undefined value NaN that `np.mean` produces on an empty list (modelled as
`none`), not a defined, documented fallback such as 0 or null. -/
theorem c7_whitespace_only_row (s : Store) :
    (categorize_csv_data s [⟨"   "⟩] "p&l").1 =
      ⟨[], ⟨0, 0, 0, 0, 0, none⟩⟩ := rfl

/-- C8: the Learn endpoint rejects a request in which any of account name,
file type or user category is absent or empty, leaving the store
unchanged; when all three are present and nonempty its effect is exactly
`save_categorization` with predicted category "uncategorized", confidence
0.3 and the user's category as the stored correction. -/
theorem c8_learn_endpoint (s : Store) (a ft u : Option String) :
    ((a = none ∨ a = some "" ∨ ft = none ∨ ft = some "" ∨
        u = none ∨ u = some "") →
      learn_from_correction s a ft u = (ApiResp.clientError, s)) ∧
    (∀ a1 ft1 u1, a = some a1 → ft = some ft1 → u = some u1 →
      a1 ≠ "" → ft1 ≠ "" → u1 ≠ "" →
      learn_from_correction s a ft u =
        (ApiResp.ok,
         save_categorization s a1 ft1 "uncategorized" 0.3 (some u1))) := by
  constructor
  · intro h
    rcases h with rfl | rfl | rfl | rfl | rfl | rfl
    · rfl
    · cases ft with
      | none => rfl
      | some ft1 =>
        cases u with
        | none => rfl
        | some u1 => simp [learn_from_correction]
    · cases a with
      | none => rfl
      | some a1 => rfl
    · cases a with
      | none => rfl
      | some a1 =>
        cases u with
        | none => rfl
        | some u1 => simp [learn_from_correction]
    · cases a with
      | none => rfl
      | some a1 =>
        cases ft with
        | none => rfl
        | some ft1 => rfl
    · cases a with
      | none => rfl
      | some a1 =>
        cases ft with
        | none => rfl
        | some ft1 => simp [learn_from_correction]
  · intro a1 ft1 u1 ha hft hu h1 h2 h3
    subst ha; subst hft; subst hu
    have hcond : (a1 == "" || ft1 == "" || u1 == "") = false := by
      simp [h1, h2, h3]
    simp [learn_from_correction, hcond]

/-- Witness for C8: a Learn request missing its user category is rejected
with the store untouched; a complete request stores the correction. -/
theorem c8_witness :
    learn_from_correction [] (some "Rent") (some "p&l") none =
      (ApiResp.clientError, []) ∧
    learn_from_correction [] (some "Rent") (some "p&l") (some "income") =
      (ApiResp.ok,
       save_categorization [] "Rent" "p&l" "uncategorized" 0.3
         (some "income")) :=
  ⟨(c8_learn_endpoint [] (some "Rent") (some "p&l") none).1
     (Or.inr (Or.inr (Or.inr (Or.inr (Or.inl rfl))))),
   (c8_learn_endpoint [] (some "Rent") (some "p&l") (some "income")).2
     "Rent" "p&l" "income" rfl rfl rfl (by decide) (by decide) (by decide)⟩

/-- C9: every per-row save inside categorize passes no user correction, so
once a categorize call resolves a pair `(a, ft)`, the stored
`user_corrected_category` for that pair is null even if a correction
existed before the call, and when the row is not covered by the section
mapping the corrected category survives only as the re-saved
`predicted_category` with confidence 0.95. -/
theorem c9_correction_marker_erased (s : Store) (rows : List Row)
    (ft a u : String) (r0 : DBRow)
    (hfind : dbFind s a ft = some r0)
    (hcorr : r0.user_corrected_category = some u)
    (hrow : ∃ row ∈ rows, row.account_name = a ∧ rowSkipped a = false) :
    (∃ p c n, dbFind (categorize_csv_data s rows ft).2 a ft =
        some ⟨a, ft, p, c, none, n⟩) ∧
    (detect_sections rows a = none →
      ∃ n, dbFind (categorize_csv_data s rows ft).2 a ft =
        some ⟨a, ft, u, 0.95, none, n⟩) := by
  rw [categorize_store]
  rcases store_fold_appears (detect_sections rows) ft a rows ([], s) hrow
    with ⟨n, hn⟩
  have hn2 : dbFind ((rows.foldl (catStep (detect_sections rows) ft)
      ([], s))).2 a ft =
      some ⟨a, ft, (resolveRow (detect_sections rows) s a ft).1,
            (resolveRow (detect_sections rows) s a ft).2, none, n⟩ := hn
  constructor
  · exact ⟨_, _, n, hn2⟩
  · intro hsec
    have hres : resolveRow (detect_sections rows) s a ft = (u, 0.95) := by
      simp only [resolveRow, hsec, fuzzy_categorize, hfind, hcorr]
    rw [hres] at hn2
    exact ⟨n, hn2⟩

/-- Witness for C9: a store holding a corrected record for "Rent", then a
one-row categorize call on "Rent". -/
theorem c9_witness :
    (∃ p c n, dbFind (categorize_csv_data
        [⟨"Rent", "t", "uncategorized", 0.3, some "income", 1⟩]
        [⟨"Rent"⟩] "t").2 "Rent" "t" = some ⟨"Rent", "t", p, c, none, n⟩) ∧
    (detect_sections [⟨"Rent"⟩] "Rent" = none →
      ∃ n, dbFind (categorize_csv_data
          [⟨"Rent", "t", "uncategorized", 0.3, some "income", 1⟩]
          [⟨"Rent"⟩] "t").2 "Rent" "t" =
        some ⟨"Rent", "t", "income", 0.95, none, n⟩) :=
  c9_correction_marker_erased
    [⟨"Rent", "t", "uncategorized", 0.3, some "income", 1⟩]
    [⟨"Rent"⟩] "t" "Rent" "income"
    ⟨"Rent", "t", "uncategorized", 0.3, some "income", 1⟩
    rfl rfl ⟨⟨"Rent"⟩, List.mem_singleton.mpr rfl, rfl, by decide⟩

theorem detect_exact_fold (n : String) (data : List Row) :
    ∀ (m : String → Option String) (cur : Option String),
      (data.foldl detectStep (m, cur)).1 n =
        (data.foldl (exactTagStep n) (m n, cur)).1 := by
  induction data with
  | nil => intro m cur; rfl
  | cons row rest ih =>
    intro m cur
    rw [List.foldl_cons, List.foldl_cons]
    rcases hstep : sectionStep cur row.account_name with _ | c0
    · have h1 : detectStep (m, cur) row = (m, none) := by
        simp [detectStep, hstep]
      have h2 : exactTagStep n (m n, cur) row = (m n, none) := by
        simp [exactTagStep, hstep]
      rw [h1, h2]
      exact ih m none
    · by_cases hskip : (pyNorm row.account_name == "" ||
          pyNorm row.account_name == "total" ||
          pyNorm row.account_name == "subtotal") = true
      · have h1 : detectStep (m, cur) row = (m, some c0) := by
          simp [detectStep, hstep, hskip]
        have h2 : exactTagStep n (m n, cur) row = (m n, some c0) := by
          simp [exactTagStep, hstep, hskip]
        rw [h1, h2]
        exact ih m (some c0)
      · have h1 : detectStep (m, cur) row =
            (fun x => if x == row.account_name then some c0 else m x,
             some c0) := by
          simp only [detectStep, hstep]
          rw [if_neg hskip]
        have h2 : exactTagStep n (m n, cur) row =
            (if n == row.account_name then some c0 else m n, some c0) := by
          simp only [exactTagStep, hstep]
          rw [if_neg hskip]
        rw [h1, h2]
        exact ih (fun x => if x == row.account_name then some c0 else m x)
          (some c0)

/-- C10: `detect_sections` normalises the account name only for rule
matching and the blank/total/subtotal filter; the returned mapping is
keyed by the original, un-normalised account name, and categorize's
section lookup is an exact match on the original name.  The general part
states that the mapping's value at any name `n` is exactly what a scan
recording only rows whose raw name equals `n` yields; the concrete part
shows two rows differing only in case and whitespace getting, and
hitting, distinct entries. -/
theorem c10_sections_keyed_by_original_name :
    (∀ (data : List Row) (n : String),
      detect_sections data n = sectionAtExact data n) ∧
    detect_sections
      [⟨"Total Income"⟩, ⟨" Rent "⟩, ⟨"Total Expense"⟩, ⟨"rent"⟩]
      " Rent " = some "income" ∧
    detect_sections
      [⟨"Total Income"⟩, ⟨" Rent "⟩, ⟨"Total Expense"⟩, ⟨"rent"⟩]
      "rent" = some "expense" ∧
    (categorize_csv_data []
      [⟨"Total Income"⟩, ⟨" Rent "⟩, ⟨"Total Expense"⟩, ⟨"rent"⟩]
      "p&l").1.categorized_data =
      [⟨"Total Income", "income", 0.9⟩, ⟨" Rent ", "income", 0.9⟩,
       ⟨"Total Expense", "expense", 0.9⟩, ⟨"rent", "expense", 0.9⟩] := by
  refine ⟨?_, by decide, by decide, rfl⟩
  intro data n
  exact detect_exact_fold n data (fun _ => none) none
